import Mathlib

/-!
# testutil: `TestInlining`

A shallow embedding of `inlining.go`.  `TestInlining` runs `go build --gcflags=-m`
on a package, scans the combined output for the compiler's ` can inline <symbol>`
diagnostics and reconciles the symbols found with the caller's expectation list.

Modelling conventions:

* a Go string (and the `[]byte` build output) is the list of its code points, which is how the
  `regexp` package reads valid UTF-8; the class `\s` of the pattern is ASCII only, so every
  other character, a Unicode space included, is in `\S`;
* the environment read by the code (`GO_GCFLAGS`, `runtime.GOOS`, ..., and the result of
  the `go build` subprocess) is an explicit `World` value;
* the effects on `*testing.T` and the subprocesses launched are recorded in a `T` value;
  `t.Skipf` and `t.Fatalf` end the test function (`runtime.Goexit`), which is the
  `Flow.exited` case;
* the map `got : map[string]bool` only ever stores `true`, so it is the finite set of its keys;
* `t.Parallel()` only reschedules the test and has no effect on what is reported, so it
  does not appear.
-/

namespace Testutil

/-- A Go string, as the list of its code points. -/
abbrev GoString := List Char

/-! ## Library functions used by `TestInlining` -/

/-- The function `strings.HasPrefix(s, p)`: `s` starts with `p`. -/
def HasPrefix (s p : GoString) : Bool := p.isPrefixOf s

/-- The function `strings.TrimPrefix(s, p)`: `s` without the leading `p`, or `s` itself when
`s` does not start with `p`. -/
def TrimPrefix (s p : GoString) : GoString :=
  if HasPrefix s p then s.drop p.length else s

/-- The function `strings.Contains(s, substr)`: `substr` occurs somewhere in `s`. -/
def Contains : GoString → GoString → Bool
  | [], substr => HasPrefix [] substr
  | c :: s, substr => HasPrefix (c :: s) substr || Contains s substr

/-- The character class `\s` of Go regular expressions, `[\t\n\f\r ]`. -/
def isSpace (c : Char) : Bool :=
  c = '\t' || c = '\n' || c = '\x0c' || c = '\r' || c = ' '

/-- The literal part of the pattern, which is also the prefix trimmed from every match. -/
def marker : GoString := " can inline ".toList

/-- The match of the pattern ` can inline (\S+)` that starts at the first position of `text`,
if there is one: the literal followed by the longest non-empty run of `\S` characters
(`+` is greedy). -/
def matchAt (text : GoString) : Option GoString :=
  if HasPrefix text marker then
    match (text.drop marker.length).takeWhile (fun c => !isSpace c) with
    | [] => none
    | c :: cs => some (marker ++ c :: cs)
  else none

/-- The successive matches on which `ReplaceAllFunc` calls its function: leftmost first, each
search resuming where the previous match ended.  `skip` is the number of characters of `text`
still inside the previous match. -/
def findAllFrom : Nat → GoString → List GoString
  | _, [] => []
  | skip + 1, _ :: rest => findAllFrom skip rest
  | 0, c :: rest =>
    match matchAt (c :: rest) with
    | some m => m :: findAllFrom (m.length - 1) rest
    | none => findAllFrom 0 rest

/-- All matches of ` can inline (\S+)` in `out`, in text order. -/
def findAll (out : GoString) : List GoString := findAllFrom 0 out

/-- Lines 36-40: the map `got` after the scan of the build output. -/
def observed (out : GoString) : Finset GoString :=
  (findAll out).foldl (fun got m => insert (TrimPrefix m marker) got) ∅

/-! ## The environment and the test context -/

/-- What the code reads from its environment. -/
structure World where
  /-- The value `os.Getenv("GO_GCFLAGS")`. -/
  GO_GCFLAGS : GoString
  /-- The value `runtime.GOOS`. -/
  GOOS : GoString
  /-- The value `runtime.GOARCH`. -/
  GOARCH : GoString
  /-- The value `runtime.GOROOT()`. -/
  GOROOT : GoString
  /-- The result `(out, err)` of `exec.Command(name, args...).CombinedOutput()`;
  `err` is `none` for Go's `nil`. -/
  CombinedOutput : List GoString → List GoString → GoString × Option GoString

/-- The reason given to `t.Skipf`. -/
inductive SkipReason where
  /-- The text `skipping test: 'go build' not compatible with setting $GO_GCFLAGS`. -/
  | gcflags
  /-- The text `skipping test: 'go build' not available on %s/%s`, with its arguments. -/
  | unavailable (goos goarch : GoString)
  deriving DecidableEq

/-- What one run has reported through `t`, and the subprocesses it has launched. -/
structure T where
  /-- The calls of `t.Skipf`. -/
  skips : List SkipReason
  /-- The arguments `(err, out)` of each `t.Fatalf("go build: %v, %s", err, out)`. -/
  fatals : List (GoString × GoString)
  /-- The argument of each `t.Errorf("%q is no longer inlinable", want)`, in call order. -/
  errors : List GoString
  /-- The arguments of the calls `t.Logf("not in expected set, but also inlinable: %q", sym)`;
  a set, as the iteration order of a Go map is unspecified. -/
  notes : Finset GoString
  /-- The commands run, as (program, arguments). -/
  commands : List (List GoString × List GoString)
  deriving DecidableEq

/-- A fresh test context. -/
def T.new : T := ⟨[], [], [], ∅, []⟩

/-- The call `t.Skipf(...)`. -/
def T.Skipf (t : T) (r : SkipReason) : T := { t with skips := t.skips ++ [r] }

/-- The call `t.Fatalf("go build: %v, %s", err, out)`. -/
def T.Fatalf (t : T) (err out : GoString) : T := { t with fatals := t.fatals ++ [(err, out)] }

/-- The call `t.Errorf("%q is no longer inlinable", want)`. -/
def T.Errorf (t : T) (want : GoString) : T := { t with errors := t.errors ++ [want] }

/-- Running `exec.Command(name, args...)`. -/
def T.run (t : T) (name : List GoString) (args : List GoString) : T :=
  { t with commands := t.commands ++ [(name, args)] }

/-- The test has failed: `t.Errorf` or `t.Fatalf` was called. -/
def T.Failed (t : T) : Bool := !t.errors.isEmpty || !t.fatals.isEmpty

/-- The test was skipped. -/
def T.Skipped (t : T) : Bool := !t.skips.isEmpty

/-- How a function that received `t` ends: it returns, or `t.Skipf`/`t.Fatalf` has ended the
test (`runtime.Goexit`). -/
inductive Flow where
  | returned (t : T)
  | exited (t : T)
  deriving DecidableEq

/-! ## `inlining.go` -/

/-- Lines 73-87. -/
def hasGoBuild (w : World) : Bool :=
  if w.GO_GCFLAGS ≠ [] then false
  else if w.GOOS = "android".toList ∨ w.GOOS = "js".toList ∨ w.GOOS = "ios".toList then false
  else true

/-- Lines 61-68. -/
def mustHaveGoBuild (w : World) (t : T) : Flow :=
  if w.GO_GCFLAGS ≠ [] then .exited (t.Skipf .gcflags)
  else if !hasGoBuild w then .exited (t.Skipf (.unavailable w.GOOS w.GOARCH))
  else .returned t

/-- Line 28, the arguments of `filepath.Join(runtime.GOROOT(), "bin", "go"+exe)`, which name
the program to run. -/
def goCommand (w : World) : List GoString :=
  let exe := if w.GOOS = "windows".toList then ".exe".toList else []
  [w.GOROOT, "bin".toList, "go".toList ++ exe]

/-- Lines 29-31, the arguments given to the program. -/
def buildArgs (pkgPath : GoString) : List GoString :=
  ["build".toList, "--gcflags=-m".toList, pkgPath]

/-- Lines 43-47, the body of the loop over `wantInlinable`. -/
def checkWant (s : Finset GoString × T) (want : GoString) : Finset GoString × T :=
  if want ∉ s.1 then (s.1, s.2.Errorf want) else (s.1.erase want, s.2)

/-- Lines 42-48, the loop over `wantInlinable`. -/
def checkWants (got : Finset GoString) (t : T) (wantInlinable : List GoString) :
    Finset GoString × T :=
  wantInlinable.foldl checkWant (got, t)

/-- Lines 49-54, the loop over what is left of `got`: every `sym` of `got` that does not
contain `.func` is passed to `t.Logf`. -/
def logExtras (got : Finset GoString) (t : T) : T :=
  { t with notes := t.notes ∪ got.filter (fun sym => !Contains sym ".func".toList) }

/-- Lines 42-54, both loops. -/
def reconcile (got : Finset GoString) (t : T) (wantInlinable : List GoString) : T :=
  let s := checkWants got t wantInlinable
  logExtras s.1 s.2

/-- Lines 20-55. -/
def TestInlining (w : World) (t : T) (pkgPath : GoString) (wantInlinable : List GoString) : T :=
  match mustHaveGoBuild w t with
  | .exited t => t
  | .returned t =>
    let t := t.run (goCommand w) (buildArgs pkgPath)
    match w.CombinedOutput (goCommand w) (buildArgs pkgPath) with
    | (out, some err) => t.Fatalf err out
    | (out, none) => reconcile (observed out) t wantInlinable

/-- The names passed to `t.Errorf` by the loop of lines 42-48 started with the map `got`
(`checkWants_errors` below). -/
def missing : Finset GoString → List GoString → List GoString
  | _, [] => []
  | got, want :: E => if want ∉ got then want :: missing got E else missing (got.erase want) E

/-- The condition on a string `s` and a build output `text`, in the words of the
specification: `s` is non-empty, has no whitespace character, and `text` has an occurrence of
the marker ` can inline ` immediately followed by `s`, with `s` followed by a whitespace
character or by the end of the text. -/
def IsTokenAfterMarker (text s : GoString) : Prop :=
  s ≠ [] ∧ (∀ c ∈ s, isSpace c = false) ∧
    ∃ pre post, text = pre ++ marker ++ s ++ post ∧ ∀ c, post.head? = some c → isSpace c = true

/-- The marker without its last character: the eleven characters of a match ` can inline can`
that precede its last space, which can itself start an occurrence of the marker. -/
def markerInit : GoString := " can inline".toList

/-- The text made of `k` copies of ` can inline can inline`.  Before an occurrence of the
marker it is scanned as `k` matches ` can inline can`, each followed by ` inline`. -/
def chain : Nat → GoString
  | 0 => []
  | k + 1 => markerInit ++ markerInit ++ chain k

/-- The tokens that the scan finds: `s` is non-empty, has no whitespace character and follows
an occurrence of the marker, with whitespace or the end of the text after it, where the
number of consecutive copies of ` can inline` that end right before the occurrence is even. -/
def IsMatchedToken (text s : GoString) : Prop :=
  s ≠ [] ∧ (∀ c ∈ s, isSpace c = false) ∧
    ∃ pre k post, text = pre ++ chain k ++ marker ++ s ++ post ∧ ¬ markerInit <:+ pre ∧
      ∀ c, post.head? = some c → isSpace c = true

/-! ## Hosts used as concrete inputs -/

/-- A Linux host without `GO_GCFLAGS` on which `go build` succeeds and prints `out`. -/
def linuxHost (out : GoString) : World :=
  ⟨[], "linux".toList, "amd64".toList, "/usr/local/go".toList, fun _ _ => (out, none)⟩

/-- A Linux host without `GO_GCFLAGS` on which `go build` prints `out` and fails with `err`. -/
def brokenHost (out err : GoString) : World :=
  ⟨[], "linux".toList, "amd64".toList, "/usr/local/go".toList, fun _ _ => (out, some err)⟩

/-- A Linux host on which `GO_GCFLAGS` is set to `-N` and `go build` would print `out`. -/
def gcflagsHost (out : GoString) : World :=
  ⟨"-N".toList, "linux".toList, "amd64".toList, "/usr/local/go".toList, fun _ _ => (out, none)⟩

/-! ## The loop over the expectation list -/

theorem checkWants_nil (got : Finset GoString) (t : T) : checkWants got t [] = (got, t) := rfl

theorem checkWants_cons (got : Finset GoString) (t : T) (want : GoString) (E : List GoString) :
    checkWants got t (want :: E) =
      checkWants (checkWant (got, t) want).1 (checkWant (got, t) want).2 E := rfl

theorem checkWants_append (got : Finset GoString) (t : T) (E F : List GoString) :
    checkWants got t (E ++ F) = checkWants (checkWants got t E).1 (checkWants got t E).2 F := by
  simp [checkWants, List.foldl_append]

/-- What is left of `got` after the loop: the symbols that are not in the list. -/
theorem checkWants_got (E : List GoString) (got : Finset GoString) (t : T) :
    (checkWants got t E).1 = got \ E.toFinset := by
  induction E generalizing got t with
  | nil => simp [checkWants_nil]
  | cons want E ih =>
    rw [checkWants_cons, ih]
    by_cases h : want ∈ got
    · simp only [checkWant, h, not_true_eq_false, if_false]
      ext x
      simp only [Finset.mem_sdiff, Finset.mem_erase, List.toFinset_cons, Finset.mem_insert]
      tauto
    · simp only [checkWant, h, not_false_eq_true, if_true]
      ext x
      simp only [Finset.mem_sdiff, List.toFinset_cons, Finset.mem_insert]
      constructor
      · rintro ⟨hx, hE⟩
        refine ⟨hx, ?_⟩
        rintro (rfl | h')
        · exact h hx
        · exact hE h'
      · rintro ⟨hx, hE⟩
        exact ⟨hx, fun h' => hE (Or.inr h')⟩

/-- The loop only adds `t.Errorf` calls. -/
theorem checkWants_frame (E : List GoString) (got : Finset GoString) (t : T) :
    (checkWants got t E).2.skips = t.skips ∧ (checkWants got t E).2.fatals = t.fatals ∧
      (checkWants got t E).2.notes = t.notes ∧ (checkWants got t E).2.commands = t.commands := by
  induction E generalizing got t with
  | nil => simp [checkWants_nil]
  | cons want E ih =>
    rw [checkWants_cons]
    obtain ⟨h1, h2, h3, h4⟩ := ih (checkWant (got, t) want).1 (checkWant (got, t) want).2
    rw [h1, h2, h3, h4]
    by_cases h : want ∈ got <;> simp [checkWant, h, T.Errorf]

theorem checkWants_errors (E : List GoString) (got : Finset GoString) (t : T) :
    (checkWants got t E).2.errors = t.errors ++ missing got E := by
  induction E generalizing got t with
  | nil => simp [checkWants_nil, missing]
  | cons want E ih =>
    rw [checkWants_cons, ih]
    by_cases h : want ∈ got <;> simp [checkWant, h, T.Errorf, missing]

theorem missing_of_nodup (E : List GoString) (got : Finset GoString) (h : E.Nodup) :
    missing got E = E.filter (fun s => s ∉ got) := by
  induction E generalizing got with
  | nil => simp [missing]
  | cons want E ih =>
    have hw : want ∉ E := (List.nodup_cons.mp h).1
    have hE : E.Nodup := (List.nodup_cons.mp h).2
    by_cases hg : want ∈ got
    · simp only [missing, hg, not_true_eq_false, if_false, ih _ hE]
      rw [List.filter_cons_of_neg (by simpa using hg)]
      apply List.filter_congr
      intro x hx
      have : x ≠ want := fun e => hw (e ▸ hx)
      simp [Finset.mem_erase, this]
    · simp only [missing, hg, not_false_eq_true, if_true, ih _ hE]
      rw [List.filter_cons_of_pos (by simpa using hg)]

/-- Symbols that are not in the list do not change the failures. -/
theorem missing_union (E : List GoString) (got X : Finset GoString)
    (h : ∀ x ∈ X, x ∉ E) : missing (got ∪ X) E = missing got E := by
  induction E generalizing got with
  | nil => simp [missing]
  | cons want E ih =>
    have hw : want ∉ X := fun hx => h want hx (List.mem_cons_self _ _)
    have hE : ∀ x ∈ X, x ∉ E := fun x hx hm => h x hx (List.mem_cons_of_mem _ hm)
    have he : (got ∪ X).erase want = got.erase want ∪ X := by
      ext x
      simp only [Finset.mem_erase, Finset.mem_union]
      constructor
      · rintro ⟨hne, hx | hx⟩
        · exact Or.inl ⟨hne, hx⟩
        · exact Or.inr hx
      · rintro (⟨hne, hx⟩ | hx)
        · exact ⟨hne, Or.inl hx⟩
        · exact ⟨fun e => hw (e ▸ hx), Or.inr hx⟩
    by_cases hg : want ∈ got
    · have : want ∈ got ∪ X := Finset.mem_union_left _ hg
      simp only [missing, hg, this, not_true_eq_false, if_false, he, ih _ hE]
    · have : want ∉ got ∪ X := by simp [hg, hw]
      simp only [missing, hg, this, not_false_eq_true, if_true, ih _ hE]

/-- The number of failures and the number of expected symbols found add up to the length of
the list. -/
theorem missing_length (E : List GoString) (got : Finset GoString) :
    (missing got E).length + (E.toFinset ∩ got).card = E.length := by
  induction E generalizing got with
  | nil => simp [missing]
  | cons want E ih =>
    by_cases hg : want ∈ got
    · simp only [missing, hg, not_true_eq_false, if_false, List.length_cons]
      have h1 : (want :: E).toFinset ∩ got = insert want (E.toFinset ∩ got.erase want) := by
        ext x
        simp only [List.toFinset_cons, Finset.mem_inter, Finset.mem_insert, Finset.mem_erase,
          List.mem_toFinset]
        constructor
        · rintro ⟨rfl | hx, hxg⟩
          · exact Or.inl rfl
          · by_cases e : x = want
            · exact Or.inl e
            · exact Or.inr ⟨hx, e, hxg⟩
        · rintro (rfl | ⟨hx, _, hxg⟩)
          · exact ⟨Or.inl rfl, hg⟩
          · exact ⟨Or.inr hx, hxg⟩
      have h2 : want ∉ E.toFinset ∩ got.erase want := by simp
      rw [h1, Finset.card_insert_of_not_mem h2]
      have := ih (got.erase want)
      omega
    · simp only [missing, hg, not_false_eq_true, if_true, List.length_cons]
      have h1 : (want :: E).toFinset ∩ got = E.toFinset ∩ got := by
        ext x
        simp only [List.toFinset_cons, Finset.mem_inter, Finset.mem_insert, List.mem_toFinset]
        constructor
        · rintro ⟨rfl | hx, hxg⟩
          · exact absurd hxg hg
          · exact ⟨hx, hxg⟩
        · rintro ⟨hx, hxg⟩
          exact ⟨Or.inr hx, hxg⟩
      rw [h1]
      have := ih got
      omega

/-- The loop reports no failure exactly when every name of the list is in `got` and no name
is repeated. -/
theorem missing_eq_nil_iff (E : List GoString) (got : Finset GoString) :
    missing got E = [] ↔ (∀ s ∈ E, s ∈ got) ∧ E.Nodup := by
  induction E generalizing got with
  | nil => simp [missing]
  | cons want E ih =>
    by_cases hg : want ∈ got
    · simp only [missing, hg, not_true_eq_false, if_false, ih, Finset.mem_erase,
        List.mem_cons, forall_eq_or_imp, true_and, List.nodup_cons]
      constructor
      · rintro ⟨h1, h2⟩
        exact ⟨fun s hs => (h1 s hs).2, fun hw => (h1 want hw).1 rfl, h2⟩
      · rintro ⟨h1, h2, h3⟩
        exact ⟨fun s hs => ⟨fun e => h2 (e ▸ hs), h1 s hs⟩, h3⟩
    · simp only [missing, hg, not_false_eq_true, if_true, List.cons_ne_nil, false_iff,
        List.mem_cons, forall_eq_or_imp, false_and, not_false_eq_true]

theorem count_eq_countP (l : List GoString) (x : GoString) :
    @List.count _ instBEqOfDecidableEq x l = l.countP (fun y => decide (y = x)) := rfl

theorem count_filter_mem (E : List GoString) (got : Finset GoString) :
    E.countP (fun s => s ∈ got) = ∑ s ∈ E.toFinset ∩ got, E.countP (fun x => x = s) := by
  have h := List.sum_toFinset_count_eq_length (E.filter (fun s => s ∈ got))
  rw [List.countP_eq_length_filter, ← h]
  have hset : (E.filter (fun s => decide (s ∈ got))).toFinset = E.toFinset ∩ got := by
    ext x
    simp [List.mem_filter]
  rw [hset]
  apply Finset.sum_congr rfl
  intro x hx
  have hxg : x ∈ got := (Finset.mem_inter.mp hx).2
  rw [count_eq_countP, List.countP_filter]
  apply List.countP_congr
  intro y _
  by_cases e : y = x
  · simp [e, hxg]
  · simp [e]

/-- The number of failures: the names missing from `got`, with multiplicity, and every further
occurrence of a name that is in `got`. -/
theorem missing_count (E : List GoString) (got : Finset GoString) :
    (missing got E).length =
      E.countP (fun s => s ∉ got) +
        ∑ s ∈ E.toFinset ∩ got, (E.countP (fun x => x = s) - 1) := by
  have h1 := missing_length E got
  have h2 := E.length_eq_countP_add_countP (fun s => decide (s ∈ got))
  have h3 := count_filter_mem E got
  have h4 : ∑ s ∈ E.toFinset ∩ got, E.countP (fun x => x = s)
      = ∑ s ∈ E.toFinset ∩ got, (E.countP (fun x => x = s) - 1) + (E.toFinset ∩ got).card := by
    rw [Finset.card_eq_sum_ones, ← Finset.sum_add_distrib]
    apply Finset.sum_congr rfl
    intro x hx
    have hx' : x ∈ E := List.mem_toFinset.mp (Finset.mem_inter.mp hx).1
    have : 0 < E.countP (fun y => decide (y = x)) :=
      List.countP_pos_iff.mpr ⟨x, hx', by simp⟩
    omega
  have h5 : E.countP (fun a => decide ¬(decide (a ∈ got) = true))
      = E.countP (fun s => decide (s ∉ got)) := by
    congr 1
    funext a
    simp
  rw [h5] at h2
  omega

/-! ## `TestInlining` when the guard lets it proceed -/

theorem mustHaveGoBuild_of_hasGoBuild (w : World) (t : T) (h : hasGoBuild w = true) :
    mustHaveGoBuild w t = .returned t := by
  have hg : w.GO_GCFLAGS = [] := by
    by_contra hne
    simp [hasGoBuild, hne] at h
  simp [mustHaveGoBuild, hg, h]

/-- With a usable `go build` that succeeds, `TestInlining` is the reconciliation of the
scanned symbols with the list. -/
theorem TestInlining_of_success (w : World) (t : T) (pkgPath out : GoString)
    (E : List GoString) (hgo : hasGoBuild w = true)
    (hbuild : w.CombinedOutput (goCommand w) (buildArgs pkgPath) = (out, none)) :
    TestInlining w t pkgPath E =
      reconcile (observed out) (t.run (goCommand w) (buildArgs pkgPath)) E := by
  simp [TestInlining, mustHaveGoBuild_of_hasGoBuild w t hgo, hbuild]

theorem reconcile_errors (got : Finset GoString) (t : T) (E : List GoString) :
    (reconcile got t E).errors = t.errors ++ missing got E := by
  simp [reconcile, logExtras, checkWants_errors]

theorem reconcile_notes (got : Finset GoString) (t : T) (E : List GoString) :
    (reconcile got t E).notes =
      t.notes ∪ (got \ E.toFinset).filter (fun sym => !Contains sym ".func".toList) := by
  simp [reconcile, logExtras, checkWants_got, (checkWants_frame E got t).2.2.1]

theorem reconcile_frame (got : Finset GoString) (t : T) (E : List GoString) :
    (reconcile got t E).skips = t.skips ∧ (reconcile got t E).fatals = t.fatals ∧
      (reconcile got t E).commands = t.commands := by
  obtain ⟨h1, h2, _, h4⟩ := checkWants_frame E got t
  simp [reconcile, logExtras, h1, h2, h4]

/-! ## The availability guard and the build -/

/-- C7: `mustHaveGoBuild` skips exactly when `GO_GCFLAGS` is non-empty or the OS is one of
`android`, `js`, `ios`, which is exactly when `hasGoBuild` is false; and when it skips,
`TestInlining` ends there for every package path and expectation list: the test is skipped,
no command is run, no failure is reported and no note is logged. -/
theorem mustHaveGoBuild_skips_iff (w : World) (t : T) :
    ((∃ t', mustHaveGoBuild w t = .exited t') ↔
        (w.GO_GCFLAGS ≠ [] ∨ w.GOOS ∈ ["android".toList, "js".toList, "ios".toList])) ∧
      ((∃ t', mustHaveGoBuild w t = .exited t') ↔ hasGoBuild w = false) ∧
      ∀ t', mustHaveGoBuild w t = .exited t' →
        t'.Skipped = true ∧ t'.skips.length = t.skips.length + 1 ∧
        ∀ (pkgPath : GoString) (E : List GoString),
          TestInlining w t pkgPath E = t' ∧
          (TestInlining w t pkgPath E).commands = t.commands ∧
          (TestInlining w t pkgPath E).errors = t.errors ∧
          (TestInlining w t pkgPath E).fatals = t.fatals ∧
          (TestInlining w t pkgPath E).notes = t.notes := by
  by_cases hg : w.GO_GCFLAGS = []
  · by_cases ho : w.GOOS = "android".toList ∨ w.GOOS = "js".toList ∨ w.GOOS = "ios".toList
    · have hb : hasGoBuild w = false := by
        unfold hasGoBuild
        rw [if_neg (not_not.mpr hg), if_pos ho]
      have hm : mustHaveGoBuild w t = .exited (t.Skipf (.unavailable w.GOOS w.GOARCH)) := by
        simp [mustHaveGoBuild, hg, hb]
      refine ⟨?_, ?_, ?_⟩
      · simp only [hm, Flow.exited.injEq, exists_eq', true_iff]
        right
        simpa using ho
      · simp [hm, hb]
      · intro t' ht'
        rw [hm] at ht'
        cases ht'
        simp [TestInlining, hm, T.Skipf, T.Skipped]
    · have hb : hasGoBuild w = true := by
        unfold hasGoBuild
        rw [if_neg (not_not.mpr hg), if_neg ho]
      have hm : mustHaveGoBuild w t = .returned t := mustHaveGoBuild_of_hasGoBuild w t hb
      refine ⟨?_, ?_, ?_⟩
      · simp only [hm, false_iff, exists_false, reduceCtorEq]
        rintro (h | h)
        · exact h hg
        · exact ho (by simpa using h)
      · simp [hm, hb]
      · intro t' ht'
        rw [hm] at ht'
        cases ht'
  · have hb : hasGoBuild w = false := by simp [hasGoBuild, hg]
    have hm : mustHaveGoBuild w t = .exited (t.Skipf .gcflags) := by
      simp [mustHaveGoBuild, hg]
    refine ⟨?_, ?_, ?_⟩
    · simp [hm, hg]
    · simp [hm, hb]
    · intro t' ht'
      rw [hm] at ht'
      cases ht'
      simp [TestInlining, hm, T.Skipf, T.Skipped]

/-- C7 at a concrete input: with `GO_GCFLAGS=-N` the test is skipped, whatever is expected. -/
theorem mustHaveGoBuild_skips_iff_witness :
    mustHaveGoBuild (gcflagsHost " can inline foo.Bar".toList) T.new
        = .exited (T.new.Skipf .gcflags) ∧
      TestInlining (gcflagsHost " can inline foo.Bar".toList) T.new "foo".toList
        ["foo.Qux".toList] = T.new.Skipf .gcflags :=
  have h : mustHaveGoBuild (gcflagsHost " can inline foo.Bar".toList) T.new
      = .exited (T.new.Skipf .gcflags) := by decide
  ⟨h, (((mustHaveGoBuild_skips_iff (gcflagsHost " can inline foo.Bar".toList) T.new).2.2
    _ h).2.2 "foo".toList ["foo.Qux".toList]).1⟩

/-- C8: when the guard lets the check proceed and `go build` returns an error, `TestInlining`
calls `t.Fatalf` once, with the error and the captured output, and ends: whatever the output
contains and whatever is expected, no failure for a symbol is reported and no note is
logged. -/
theorem TestInlining_build_error (w : World) (t : T) (pkgPath out err : GoString)
    (E : List GoString) (hgo : hasGoBuild w = true)
    (hbuild : w.CombinedOutput (goCommand w) (buildArgs pkgPath) = (out, some err)) :
    TestInlining w t pkgPath E = (t.run (goCommand w) (buildArgs pkgPath)).Fatalf err out ∧
      (TestInlining w t pkgPath E).fatals = t.fatals ++ [(err, out)] ∧
      (TestInlining w t pkgPath E).errors = t.errors ∧
      (TestInlining w t pkgPath E).notes = t.notes ∧
      (TestInlining w t pkgPath E).skips = t.skips := by
  simp [TestInlining, mustHaveGoBuild_of_hasGoBuild w t hgo, hbuild, T.Fatalf, T.run]

/-- C8 at a concrete input: the output of the failed build names `foo.Bar` and `foo.Extra`, the
list expects `foo.Qux`; only the fatal failure is reported. -/
theorem TestInlining_build_error_witness :
    (TestInlining (brokenHost " can inline foo.Bar\n can inline foo.Extra".toList
        "exit status 1".toList) T.new "foo".toList ["foo.Qux".toList]).fatals
        = [("exit status 1".toList, " can inline foo.Bar\n can inline foo.Extra".toList)] ∧
      (TestInlining (brokenHost " can inline foo.Bar\n can inline foo.Extra".toList
        "exit status 1".toList) T.new "foo".toList ["foo.Qux".toList]).errors = [] ∧
      (TestInlining (brokenHost " can inline foo.Bar\n can inline foo.Extra".toList
        "exit status 1".toList) T.new "foo".toList ["foo.Qux".toList]).notes = ∅ :=
  have h := TestInlining_build_error
    (brokenHost " can inline foo.Bar\n can inline foo.Extra".toList "exit status 1".toList)
    T.new "foo".toList " can inline foo.Bar\n can inline foo.Extra".toList
    "exit status 1".toList ["foo.Qux".toList] (by decide) rfl
  ⟨h.2.1, h.2.2.1, h.2.2.2.1⟩

/-! ## The reconciliation -/

/-- C1, the code at a repeated expectation: `go build` reports `foo.Bar` as inlinable and the
list names `foo.Bar` twice; every expected name is in the observed set, and `TestInlining`
reports that `foo.Bar` is no longer inlinable. -/
theorem TestInlining_repeated_expectation :
    (∀ s ∈ ["foo.Bar".toList, "foo.Bar".toList],
        s ∈ observed "./foo.go:3:6: can inline foo.Bar\n".toList) ∧
      (TestInlining (linuxHost "./foo.go:3:6: can inline foo.Bar\n".toList) T.new "foo".toList
        ["foo.Bar".toList, "foo.Bar".toList]).errors = ["foo.Bar".toList] ∧
      (TestInlining (linuxHost "./foo.go:3:6: can inline foo.Bar\n".toList) T.new "foo".toList
        ["foo.Bar".toList, "foo.Bar".toList]).Failed = true := by
  decide

/-- C4: for a list without repeated names, the failures reported are the names of the list
that are not in the observed set, in the order of the list, one each. -/
theorem TestInlining_errors_of_nodup (w : World) (t : T) (pkgPath out : GoString)
    (E : List GoString) (hgo : hasGoBuild w = true)
    (hbuild : w.CombinedOutput (goCommand w) (buildArgs pkgPath) = (out, none))
    (hE : E.Nodup) :
    (TestInlining w t pkgPath E).errors = t.errors ++ E.filter (fun s => s ∉ observed out) := by
  rw [TestInlining_of_success w t pkgPath out E hgo hbuild, reconcile_errors,
    missing_of_nodup E _ hE]
  rfl

/-- C4 at the input of the claim: `foo.Bar` and `foo.Qux` are expected, `foo.Bar` is observed;
the one failure is for `foo.Qux`. -/
theorem TestInlining_errors_of_nodup_witness :
    (TestInlining (linuxHost "./foo.go:3:6: can inline foo.Bar\n".toList) T.new "foo".toList
      ["foo.Bar".toList, "foo.Qux".toList]).errors = ["foo.Qux".toList] :=
  (TestInlining_errors_of_nodup (linuxHost "./foo.go:3:6: can inline foo.Bar\n".toList) T.new
    "foo".toList "./foo.go:3:6: can inline foo.Bar\n".toList
    ["foo.Bar".toList, "foo.Qux".toList] (by decide) rfl (by decide)).trans (by decide)

/-- C5: the symbols that get the note "not in expected set, but also inlinable" are the
observed symbols that are not in the list and do not contain `.func`. -/
theorem TestInlining_notes (w : World) (t : T) (pkgPath out : GoString)
    (E : List GoString) (hgo : hasGoBuild w = true)
    (hbuild : w.CombinedOutput (goCommand w) (buildArgs pkgPath) = (out, none)) :
    (TestInlining w t pkgPath E).notes =
      t.notes ∪ (observed out).filter (fun s => s ∉ E ∧ Contains s ".func".toList = false) := by
  rw [TestInlining_of_success w t pkgPath out E hgo hbuild, reconcile_notes]
  congr 1
  ext x
  simp only [Finset.mem_filter, Finset.mem_sdiff, List.mem_toFinset, Bool.not_eq_true']
  tauto

/-- C5 at a concrete input: `foo.Bar` is expected; `foo.Bar`, `foo.Extra` and the closure
`foo.Bar.func1` are observed; the one note is for `foo.Extra`. -/
theorem TestInlining_notes_witness :
    (TestInlining
      (linuxHost " can inline foo.Bar\n can inline foo.Extra\n can inline foo.Bar.func1".toList)
      T.new "foo".toList ["foo.Bar".toList]).notes = {"foo.Extra".toList} :=
  (TestInlining_notes
    (linuxHost " can inline foo.Bar\n can inline foo.Extra\n can inline foo.Bar.func1".toList)
    T.new "foo".toList
    " can inline foo.Bar\n can inline foo.Extra\n can inline foo.Bar.func1".toList
    ["foo.Bar".toList] (by decide) rfl).trans (by decide)

/-- C6: observed symbols that are not in the list never change the failures: when a second
build output adds the symbols `X`, none of them expected, the failures reported are the
same, in the same order, and so is the outcome of the test. -/
theorem TestInlining_errors_extra (w w' : World) (t : T) (pkgPath out out' : GoString)
    (E : List GoString) (X : Finset GoString)
    (hgo : hasGoBuild w = true)
    (hbuild : w.CombinedOutput (goCommand w) (buildArgs pkgPath) = (out, none))
    (hgo' : hasGoBuild w' = true)
    (hbuild' : w'.CombinedOutput (goCommand w') (buildArgs pkgPath) = (out', none))
    (hout : observed out' = observed out ∪ X) (hX : ∀ x ∈ X, x ∉ E) :
    (TestInlining w' t pkgPath E).errors = (TestInlining w t pkgPath E).errors ∧
      (TestInlining w' t pkgPath E).Failed = (TestInlining w t pkgPath E).Failed := by
  have he : (TestInlining w' t pkgPath E).errors = (TestInlining w t pkgPath E).errors := by
    rw [TestInlining_of_success w t pkgPath out E hgo hbuild,
      TestInlining_of_success w' t pkgPath out' E hgo' hbuild', reconcile_errors,
      reconcile_errors, hout, missing_union E _ X hX]
    rfl
  have hf : (TestInlining w' t pkgPath E).fatals = (TestInlining w t pkgPath E).fatals := by
    rw [TestInlining_of_success w t pkgPath out E hgo hbuild,
      TestInlining_of_success w' t pkgPath out' E hgo' hbuild', (reconcile_frame _ _ _).2.1,
      (reconcile_frame _ _ _).2.1]
    rfl
  exact ⟨he, by simp only [T.Failed, he, hf]⟩

/-- C6 at a concrete input: `foo.Bar` and `foo.Qux` are expected; adding `foo.Extra` to the
observed `foo.Bar` leaves the one failure, for `foo.Qux`. -/
theorem TestInlining_errors_extra_witness :
    (TestInlining (linuxHost " can inline foo.Bar\n can inline foo.Extra".toList) T.new
        "foo".toList ["foo.Bar".toList, "foo.Qux".toList]).errors
      = (TestInlining (linuxHost " can inline foo.Bar".toList) T.new
        "foo".toList ["foo.Bar".toList, "foo.Qux".toList]).errors :=
  (TestInlining_errors_extra (linuxHost " can inline foo.Bar".toList)
    (linuxHost " can inline foo.Bar\n can inline foo.Extra".toList) T.new "foo".toList
    " can inline foo.Bar".toList " can inline foo.Bar\n can inline foo.Extra".toList
    ["foo.Bar".toList, "foo.Qux".toList] {"foo.Extra".toList}
    (by decide) rfl (by decide) rfl (by decide) (by decide)).1

/-- C9: iteration `i` of the loop over the list adds a failure, for `E[i]`, exactly when
`E[i]` is not in the observed set or already occurs at an earlier position; the number of
failures is the number of names missing from the observed set, with multiplicity, plus the
occurrences after the first of every name that is in it. -/
theorem TestInlining_error_positions (w : World) (t : T) (pkgPath out : GoString)
    (E : List GoString) (hgo : hasGoBuild w = true)
    (hbuild : w.CombinedOutput (goCommand w) (buildArgs pkgPath) = (out, none)) :
    (∀ (i : Nat) (h : i < E.length),
      (checkWants (observed out) (t.run (goCommand w) (buildArgs pkgPath))
          (E.take (i + 1))).2.errors =
        (checkWants (observed out) (t.run (goCommand w) (buildArgs pkgPath))
          (E.take i)).2.errors ++
          if E[i] ∉ observed out ∨ E[i] ∈ E.take i then [E[i]] else []) ∧
      (TestInlining w t pkgPath E).errors =
        (checkWants (observed out) (t.run (goCommand w) (buildArgs pkgPath)) E).2.errors ∧
      (TestInlining w t pkgPath E).errors.length =
        t.errors.length + E.countP (fun s => s ∉ observed out) +
          ∑ s ∈ E.toFinset ∩ observed out, (E.countP (fun x => x = s) - 1) := by
  refine ⟨?_, ?_, ?_⟩
  · intro i h
    rw [List.take_succ, List.getElem?_eq_getElem h, Option.toList_some, checkWants_append]
    generalize hs : checkWants (observed out) (t.run (goCommand w) (buildArgs pkgPath))
      (E.take i) = s
    have hgot : s.1 = observed out \ (E.take i).toFinset := by
      rw [← hs, checkWants_got]
    have hiff : E[i] ∉ s.1 ↔ (E[i] ∉ observed out ∨ E[i] ∈ E.take i) := by
      rw [hgot, Finset.mem_sdiff, List.mem_toFinset]
      tauto
    by_cases hc : E[i] ∉ observed out ∨ E[i] ∈ E.take i
    · have hn : E[i] ∉ s.1 := hiff.mpr hc
      simp [checkWants, checkWant, hn, hc, T.Errorf]
    · have hn : ¬ E[i] ∉ s.1 := fun h' => hc (hiff.mp h')
      simp only [checkWants, List.foldl_cons, List.foldl_nil, checkWant, hn, hc, if_false,
        List.append_nil]
  · rw [TestInlining_of_success w t pkgPath out E hgo hbuild]
    simp [reconcile, logExtras]
  · rw [TestInlining_of_success w t pkgPath out E hgo hbuild, reconcile_errors,
      List.length_append, missing_count, Nat.add_assoc]
    rfl

/-- C9 at a concrete input: `foo.Bar` is observed; of the expected `foo.Bar`, `foo.Qux`,
`foo.Bar`, the second is missing and the third is a repeat, which makes two failures. -/
theorem TestInlining_error_positions_witness :
    (TestInlining (linuxHost " can inline foo.Bar".toList) T.new "foo".toList
      ["foo.Bar".toList, "foo.Qux".toList, "foo.Bar".toList]).errors
        = ["foo.Qux".toList, "foo.Bar".toList] ∧
    (TestInlining (linuxHost " can inline foo.Bar".toList) T.new "foo".toList
      ["foo.Bar".toList, "foo.Qux".toList, "foo.Bar".toList]).errors.length = 0 + 1 + 1 :=
  ⟨by decide,
    (TestInlining_error_positions (linuxHost " can inline foo.Bar".toList) T.new "foo".toList
      " can inline foo.Bar".toList ["foo.Bar".toList, "foo.Qux".toList, "foo.Bar".toList]
      (by decide) rfl).2.2.trans (by decide)⟩

/-- C10: the order of the list does not matter: for two lists that are permutations of each
other the test fails for both or for neither, the number of failures is the same and the
same symbols get a note. -/
theorem TestInlining_perm (w : World) (t : T) (pkgPath out : GoString)
    (E E' : List GoString) (hgo : hasGoBuild w = true)
    (hbuild : w.CombinedOutput (goCommand w) (buildArgs pkgPath) = (out, none))
    (hperm : E.Perm E') :
    ((TestInlining w t pkgPath E).Failed = (TestInlining w t pkgPath E').Failed) ∧
      (TestInlining w t pkgPath E).errors.length = (TestInlining w t pkgPath E').errors.length ∧
      (TestInlining w t pkgPath E).notes = (TestInlining w t pkgPath E').notes := by
  have hset : E.toFinset = E'.toFinset := List.toFinset_eq_of_perm _ _ hperm
  have hlen : (missing (observed out) E).length = (missing (observed out) E').length := by
    have h1 := missing_length E (observed out)
    have h2 := missing_length E' (observed out)
    have h3 := hperm.length_eq
    rw [hset] at h1
    omega
  rw [TestInlining_of_success w t pkgPath out E hgo hbuild,
    TestInlining_of_success w t pkgPath out E' hgo hbuild]
  refine ⟨?_, ?_, ?_⟩
  · have hE : ∀ (a l : List GoString),
        (a ++ missing (observed out) l).isEmpty
          = (a.isEmpty && decide ((missing (observed out) l).length = 0)) := by
      intro a l
      cases a <;> cases missing (observed out) l <;> simp
    simp only [T.Failed, reconcile_errors, (reconcile_frame _ _ _).2.1, hE, hlen]
  · simp only [reconcile_errors, List.length_append, hlen]
  · simp only [reconcile_notes, hset]

/-- C10 at a concrete input: two orders of the expected `foo.Qux`, `foo.Bar`, `foo.Bar`, with
`foo.Bar` and `foo.Extra` observed: two failures and a note for `foo.Extra` in both. -/
theorem TestInlining_perm_witness :
    (TestInlining (linuxHost " can inline foo.Bar\n can inline foo.Extra".toList) T.new
        "foo".toList ["foo.Qux".toList, "foo.Bar".toList, "foo.Bar".toList]).errors.length
      = (TestInlining (linuxHost " can inline foo.Bar\n can inline foo.Extra".toList) T.new
        "foo".toList ["foo.Bar".toList, "foo.Qux".toList, "foo.Bar".toList]).errors.length ∧
    (TestInlining (linuxHost " can inline foo.Bar\n can inline foo.Extra".toList) T.new
        "foo".toList ["foo.Qux".toList, "foo.Bar".toList, "foo.Bar".toList]).errors.length = 2 ∧
    (TestInlining (linuxHost " can inline foo.Bar\n can inline foo.Extra".toList) T.new
        "foo".toList ["foo.Bar".toList, "foo.Qux".toList, "foo.Bar".toList]).notes
      = {"foo.Extra".toList} :=
  ⟨(TestInlining_perm (linuxHost " can inline foo.Bar\n can inline foo.Extra".toList) T.new
      "foo".toList " can inline foo.Bar\n can inline foo.Extra".toList
      ["foo.Qux".toList, "foo.Bar".toList, "foo.Bar".toList]
      ["foo.Bar".toList, "foo.Qux".toList, "foo.Bar".toList] (by decide) rfl
      (List.Perm.swap _ _ _)).2.1, by decide, by decide⟩

/-! ## The scan of the build output -/

theorem findAllFrom_nil (k : Nat) : findAllFrom k [] = [] := by
  cases k <;> rfl

theorem findAllFrom_skip (k : Nat) (u : GoString) :
    findAllFrom k u = findAllFrom 0 (u.drop k) := by
  induction k generalizing u with
  | zero => rfl
  | succ k ih =>
    cases u with
    | nil => rfl
    | cons c rest => simpa [findAllFrom] using ih rest

theorem findAllFrom_zero_cons (c : Char) (rest : GoString) :
    findAllFrom 0 (c :: rest) =
      match matchAt (c :: rest) with
      | some m => m :: findAllFrom 0 (rest.drop (m.length - 1))
      | none => findAllFrom 0 rest := by
  rw [findAllFrom]
  cases matchAt (c :: rest) with
  | none => rfl
  | some m => simp only [findAllFrom_skip (m.length - 1) rest]

theorem matchAt_marker (rest : GoString) :
    matchAt (marker ++ rest) =
      if rest.takeWhile (fun c => !isSpace c) = [] then none
      else some (marker ++ rest.takeWhile (fun c => !isSpace c)) := by
  have hp : HasPrefix (marker ++ rest) marker = true := by
    simp [HasPrefix]
  simp only [matchAt, hp, if_true, List.drop_left]
  cases rest.takeWhile (fun c => !isSpace c) <;> simp

theorem matchAt_eq_some (u m : GoString) (h : matchAt u = some m) :
    ∃ rest, u = marker ++ rest ∧ m = marker ++ rest.takeWhile (fun c => !isSpace c) ∧
      rest.takeWhile (fun c => !isSpace c) ≠ [] := by
  by_cases hp : HasPrefix u marker = true
  · obtain ⟨rest, rfl⟩ : marker <+: u := by simpa [HasPrefix] using hp
    refine ⟨rest, rfl, ?_⟩
    rw [matchAt_marker] at h
    by_cases he : rest.takeWhile (fun c => !isSpace c) = []
    · simp [he] at h
    · simp only [he, if_false, Option.some.injEq] at h
      exact ⟨h.symm, he⟩
  · simp [matchAt, hp] at h

/-- Every match is the marker followed by a whitespace-delimited token of the text. -/
theorem findAllFrom_sound (u : GoString) : ∀ (k : Nat) (m : GoString), m ∈ findAllFrom k u →
    ∃ pre tok post, u = pre ++ marker ++ tok ++ post ∧ m = marker ++ tok ∧ tok ≠ [] ∧
      (∀ c ∈ tok, isSpace c = false) ∧ ∀ c, post.head? = some c → isSpace c = true := by
  induction u with
  | nil =>
    intro k m hm
    simp [findAllFrom_nil] at hm
  | cons c rest ih =>
    intro k m hm
    have lift : m ∈ findAllFrom 0 (rest.drop 0) ∨ (∃ j, m ∈ findAllFrom j rest) →
        ∃ pre tok post, c :: rest = pre ++ marker ++ tok ++ post ∧ m = marker ++ tok ∧
          tok ≠ [] ∧ (∀ c ∈ tok, isSpace c = false) ∧
          ∀ c, post.head? = some c → isSpace c = true := by
      rintro (h | ⟨j, h⟩)
      · obtain ⟨pre, tok, post, h1, h2⟩ := ih 0 m h
        exact ⟨c :: pre, tok, post, by simp [h1], h2⟩
      · obtain ⟨pre, tok, post, h1, h2⟩ := ih j m h
        exact ⟨c :: pre, tok, post, by simp [h1], h2⟩
    cases k with
    | succ k => exact lift (Or.inr ⟨k, by simpa [findAllFrom] using hm⟩)
    | zero =>
      rw [findAllFrom] at hm
      cases hmatch : matchAt (c :: rest) with
      | none =>
        rw [hmatch] at hm
        exact lift (Or.inr ⟨0, hm⟩)
      | some m' =>
        rw [hmatch] at hm
        rcases List.mem_cons.mp hm with rfl | hm'
        · obtain ⟨r, hu, hm, hne⟩ := matchAt_eq_some _ _ hmatch
          refine ⟨[], r.takeWhile (fun c => !isSpace c), r.dropWhile (fun c => !isSpace c),
            ?_, hm, hne, ?_, ?_⟩
          · simp [hu, List.append_assoc]
          · intro x hx
            simpa using List.mem_takeWhile_imp hx
          · intro x hx
            have := List.head?_dropWhile_not (fun c => !isSpace c) r
            rw [hx] at this
            simpa using this
        · exact lift (Or.inr ⟨_, hm'⟩)

theorem foldl_insert_eq (f : GoString → GoString) (l : List GoString) (S : Finset GoString) :
    l.foldl (fun got m => insert (f m) got) S = S ∪ (l.map f).toFinset := by
  induction l generalizing S with
  | nil => simp
  | cons a l ih =>
    rw [List.foldl_cons, ih]
    ext x
    simp only [Finset.mem_union, Finset.mem_insert, List.map_cons, List.toFinset_cons]
    tauto

theorem TrimPrefix_marker (tok : GoString) : TrimPrefix (marker ++ tok) marker = tok := by
  simp [TrimPrefix, HasPrefix]

/-- The observed set holds the tokens of the matches. -/
theorem mem_observed (out s : GoString) :
    s ∈ observed out ↔ ∃ m ∈ findAll out, TrimPrefix m marker = s := by
  simp [observed, foldl_insert_eq]

/-- Every member of the observed set is a whitespace-delimited token after the marker. -/
theorem observed_sound (text s : GoString) (h : s ∈ observed text) :
    IsTokenAfterMarker text s := by
  obtain ⟨m, hm, hs⟩ := (mem_observed text s).mp h
  obtain ⟨pre, tok, post, h1, h2, h3, h4, h5⟩ := findAllFrom_sound text 0 m hm
  rw [h2, TrimPrefix_marker] at hs
  subst hs
  exact ⟨h3, h4, pre, post, h1, h5⟩

theorem Contains_iff_infix (s sub : GoString) : Contains s sub = true ↔ sub <:+: s := by
  induction s with
  | nil => simp [Contains, HasPrefix]
  | cons c s ih => simp [Contains, HasPrefix, List.infix_cons_iff, ih]

theorem takeWhile_token (s post : GoString) (hs : ∀ c ∈ s, isSpace c = false)
    (hpost : ∀ c, post.head? = some c → isSpace c = true) :
    (s ++ post).takeWhile (fun c => !isSpace c) = s := by
  rw [List.takeWhile_append_of_pos (by simpa using hs)]
  cases post with
  | nil => simp
  | cons c rest =>
    have := hpost c rfl
    simp [this]

theorem takeWhile_length_le (a b : GoString) (c : Char) (hc : isSpace c = true) :
    ((a ++ c :: b).takeWhile (fun c => !isSpace c)).length ≤ a.length := by
  induction a with
  | nil => simp [hc]
  | cons x a ih =>
    rw [List.cons_append, List.takeWhile_cons]
    split
    · simpa using ih
    · simp

/-- The marker overlaps a later copy of itself only in its last character. -/
theorem marker_overlap :
    ∀ n, n < 12 → 0 < n → marker.drop n = marker.take (12 - n) → n = 11 := by
  decide

/-- A match that starts before an occurrence of the marker ends before that occurrence,
unless it starts eleven characters before it, with ` can inline`. -/
theorem match_over_marker (pre Y m : GoString) (hpre : pre ≠ [])
    (hm : matchAt (pre ++ marker ++ Y) = some m) :
    (12 ≤ m.length ∧ m.length ≤ pre.length) ∨ pre = markerInit := by
  obtain ⟨r, hu, hmr, _⟩ := matchAt_eq_some _ _ hm
  have hlen : marker.length = 12 := rfl
  have hn0 : 0 < pre.length := List.length_pos.mpr hpre
  by_cases h12 : 12 ≤ pre.length
  · left
    have hr : r = pre.drop 12 ++ (' ' :: (marker.tail ++ Y)) := by
      have := congrArg (List.drop 12) hu
      rw [← hlen, List.drop_left, hlen, List.append_assoc,
        List.drop_append_of_le_length h12] at this
      rw [← this]
      rfl
    have hle : (r.takeWhile (fun c => !isSpace c)).length ≤ (pre.drop 12).length := by
      rw [hr]
      exact takeWhile_length_le _ _ _ (by decide)
    rw [List.length_drop] at hle
    rw [hmr, List.length_append, hlen]
    omega
  · right
    have hlt : pre.length < 12 := Nat.lt_of_not_le h12
    have ht := congrArg (List.take 12) hu
    rw [List.append_assoc, List.take_append_eq_append_take,
      List.take_of_length_le (Nat.le_of_lt hlt),
      List.take_append_of_le_length (by rw [hlen]; omega), ← hlen, List.take_left] at ht
    have h1 : pre = marker.take pre.length := by
      have := congrArg (List.take pre.length) ht
      rwa [List.take_left] at this
    have h2 : marker.take (marker.length - pre.length) = marker.drop pre.length := by
      have := congrArg (List.drop pre.length) ht
      rwa [List.drop_left] at this
    have h11 : pre.length = 11 := marker_overlap pre.length hlt hn0 (by rw [← h2, hlen])
    rw [h11] at h1
    rw [h1]
    rfl

/-- A match that starts before an occurrence of the marker, itself not preceded by
` can inline`, ends before that occurrence. -/
theorem match_before_marker (pre Y m : GoString) (hpre : pre ≠ [])
    (hL : ¬ markerInit <:+ pre) (hm : matchAt (pre ++ marker ++ Y) = some m) :
    12 ≤ m.length ∧ m.length ≤ pre.length := by
  rcases match_over_marker pre Y m hpre hm with h | h
  · exact h
  · exact absurd ⟨[], by rw [h]; rfl⟩ hL

theorem findAllFrom_of_match (u m : GoString) (hm : matchAt u = some m) :
    findAllFrom 0 u = m :: findAllFrom 0 (u.drop m.length) := by
  obtain ⟨r, _, hmr, _⟩ := matchAt_eq_some _ _ hm
  have hlen : 1 ≤ m.length := by
    rw [hmr, List.length_append]
    have : marker.length = 12 := rfl
    omega
  cases u with
  | nil => simp [matchAt, HasPrefix, marker] at hm
  | cons c rest =>
    rw [findAllFrom_zero_cons, hm]
    obtain ⟨k, hk⟩ : ∃ k, m.length = k + 1 := ⟨m.length - 1, by omega⟩
    simp [hk]

/-- The scan of a text resumes at an occurrence of the marker that is not preceded by
` can inline`: the matches from there on are those of the rest of the text. -/
theorem findAllFrom_suffix (Y : GoString) :
    ∀ (n : Nat) (pre : GoString), pre.length ≤ n → ¬ markerInit <:+ pre →
      ∃ ms, findAllFrom 0 (pre ++ marker ++ Y) = ms ++ findAllFrom 0 (marker ++ Y) := by
  intro n
  induction n with
  | zero =>
    intro pre hlen _
    have : pre = [] := List.length_eq_zero.mp (Nat.le_zero.mp hlen)
    subst this
    exact ⟨[], rfl⟩
  | succ n ih =>
    intro pre hlen hL
    cases pre with
    | nil => exact ⟨[], rfl⟩
    | cons c pre' =>
      have hlen' : pre'.length ≤ n := by simpa using hlen
      cases hmatch : matchAt (c :: pre' ++ marker ++ Y) with
      | none =>
        have hstep : findAllFrom 0 (c :: pre' ++ marker ++ Y)
            = findAllFrom 0 (pre' ++ marker ++ Y) := by
          simp only [List.cons_append] at hmatch ⊢
          rw [findAllFrom_zero_cons, hmatch]
        rw [hstep]
        exact ih pre' hlen' (fun h => hL (h.trans (List.suffix_cons c pre')))
      | some m =>
        obtain ⟨h12, hle⟩ := match_before_marker (c :: pre') Y m (by simp) hL hmatch
        rw [findAllFrom_of_match _ _ hmatch]
        have hdrop : (c :: pre' ++ marker ++ Y).drop m.length
            = (c :: pre').drop m.length ++ marker ++ Y := by
          rw [List.append_assoc, List.drop_append_of_le_length hle]
          simp [List.append_assoc]
        rw [hdrop]
        obtain ⟨ms, hms⟩ := ih ((c :: pre').drop m.length)
          (by
            rw [List.length_drop]
            simp only [List.length_cons] at hlen ⊢
            omega)
          (fun h => hL (h.trans (List.drop_suffix _ _)))
        exact ⟨m :: ms, by rw [hms]; rfl⟩

/-- A text that starts with the marker and a whitespace-delimited token starts with a match. -/
theorem matchAt_token (s post : GoString) (hne : s ≠ [])
    (hs : ∀ c ∈ s, isSpace c = false) (hpost : ∀ c, post.head? = some c → isSpace c = true) :
    matchAt (marker ++ (s ++ post)) = some (marker ++ s) := by
  rw [matchAt_marker, takeWhile_token s post hs hpost]
  simp [hne]

theorem chain_marker (k : Nat) (Y : GoString) :
    ∃ Y', chain k ++ marker ++ Y = marker ++ Y' := by
  cases k with
  | zero => exact ⟨Y, rfl⟩
  | succ k => exact ⟨"can inline".toList ++ chain k ++ marker ++ Y, by simp [chain, markerInit, marker]⟩

/-- The scan of `k` copies of ` can inline can inline` before an occurrence of the marker
resumes at that occurrence. -/
theorem findAllFrom_chain (Y : GoString) (k : Nat) :
    ∃ ms, findAllFrom 0 (chain k ++ marker ++ Y) = ms ++ findAllFrom 0 (marker ++ Y) := by
  induction k with
  | zero => exact ⟨[], rfl⟩
  | succ k ih =>
    obtain ⟨Y', hY'⟩ := chain_marker k Y
    have hsplit : chain (k + 1) ++ marker ++ Y
        = marker ++ ("can".toList ++ (" inline".toList ++ marker ++ Y')) := by
      rw [List.append_assoc " inline".toList, ← hY']
      simp [chain, markerInit, marker]
    have hm : matchAt (chain (k + 1) ++ marker ++ Y) = some (marker ++ "can".toList) := by
      rw [hsplit]
      exact matchAt_token _ _ (by decide) (by decide) (by simp [isSpace])
    have hdrop : (chain (k + 1) ++ marker ++ Y).drop (marker ++ "can".toList).length
        = " inline".toList ++ marker ++ Y' := by
      rw [hsplit, ← List.append_assoc, List.drop_left]
    rw [findAllFrom_of_match _ _ hm, hdrop]
    obtain ⟨ms₁, h1⟩ := findAllFrom_suffix Y' 7 " inline".toList (by decide) (by decide)
    obtain ⟨ms₂, h2⟩ := ih
    rw [h1, ← hY', h2]
    exact ⟨(marker ++ "can".toList) :: (ms₁ ++ ms₂), by simp⟩

/-- A whitespace-delimited token after an occurrence of the marker that is preceded by an even
number of copies of ` can inline` is matched. -/
theorem findAllFrom_complete (pre s post : GoString) (k : Nat) (hne : s ≠ [])
    (hs : ∀ c ∈ s, isSpace c = false) (hpost : ∀ c, post.head? = some c → isSpace c = true)
    (hL : ¬ markerInit <:+ pre) :
    marker ++ s ∈ findAllFrom 0 (pre ++ chain k ++ marker ++ s ++ post) := by
  obtain ⟨Y', hY'⟩ := chain_marker k (s ++ post)
  obtain ⟨ms₁, h1⟩ := findAllFrom_suffix Y' pre.length pre (Nat.le_refl _) hL
  obtain ⟨ms₂, h2⟩ := findAllFrom_chain (s ++ post) k
  have htext : pre ++ chain k ++ marker ++ s ++ post = pre ++ marker ++ Y' := by
    rw [List.append_assoc pre marker, ← hY']
    simp [List.append_assoc]
  rw [htext, h1, ← hY', h2, findAllFrom_of_match _ _ (matchAt_token s post hne hs hpost)]
  simp

theorem observed_complete (pre s post : GoString) (k : Nat) (hne : s ≠ [])
    (hs : ∀ c ∈ s, isSpace c = false) (hpost : ∀ c, post.head? = some c → isSpace c = true)
    (hL : ¬ markerInit <:+ pre) : s ∈ observed (pre ++ chain k ++ marker ++ s ++ post) :=
  (mem_observed _ _).mpr ⟨marker ++ s, findAllFrom_complete pre s post k hne hs hpost hL,
    TrimPrefix_marker s⟩

theorem matchAt_split (u m : GoString) (hm : matchAt u = some m) :
    u = m ++ u.drop m.length ∧ 13 ≤ m.length := by
  obtain ⟨r, hu, hmr, hne⟩ := matchAt_eq_some _ _ hm
  have hpre : m <+: u := by
    rw [hu, hmr]
    exact (List.prefix_append_right_inj marker).mpr (List.takeWhile_prefix _)
  refine ⟨(List.prefix_iff_eq_append.mp hpre).symm, ?_⟩
  have h12 : marker.length = 12 := rfl
  have := List.length_pos.mpr hne
  rw [hmr, List.length_append, h12]
  omega

/-- After ` can inline`, copies of ` can inline can inline` and an occurrence of the marker
start with the match ` can inline can`. -/
theorem matchAt_markerInit_chain (k : Nat) (Y : GoString) :
    ∃ Y', markerInit ++ (chain k ++ marker ++ Y) = marker ++ Y' ∧
      matchAt (markerInit ++ (chain k ++ marker ++ Y)) = some (marker ++ "can".toList) := by
  obtain ⟨Y', hY'⟩ := chain_marker k Y
  have hsplit : markerInit ++ (chain k ++ marker ++ Y)
      = marker ++ ("can".toList ++ (" inline ".toList ++ Y')) := by
    rw [hY']
    simp [markerInit, marker]
  refine ⟨_, hsplit, ?_⟩
  rw [hsplit]
  exact matchAt_token _ _ (by decide) (by decide) (by simp [isSpace])

/-- Every match is the marker followed by a whitespace-delimited token of the text, at an
occurrence of the marker that is preceded by an even number of copies of ` can inline`. -/
theorem findAllFrom_exact (n : Nat) : ∀ (u : GoString), u.length ≤ n →
    ∀ m ∈ findAllFrom 0 u, ∃ pre k tok post, u = pre ++ chain k ++ marker ++ tok ++ post ∧
      m = marker ++ tok ∧ tok ≠ [] ∧ (∀ c ∈ tok, isSpace c = false) ∧
      (∀ c, post.head? = some c → isSpace c = true) ∧ ¬ markerInit <:+ pre := by
  induction n with
  | zero =>
    intro u hlen m hm
    have : u = [] := List.length_eq_zero.mp (Nat.le_zero.mp hlen)
    subst this
    simp [findAllFrom_nil] at hm
  | succ n ih =>
    intro u hlen m hm
    cases u with
    | nil => simp [findAllFrom_nil] at hm
    | cons c rest =>
      have hlen' : rest.length ≤ n := by simpa using hlen
      cases hmatch : matchAt (c :: rest) with
      | none =>
        rw [findAllFrom_zero_cons, hmatch] at hm
        obtain ⟨pre, k, tok, post, hu, h2, h3, h4, h5, hL⟩ := ih rest hlen' m hm
        refine ⟨c :: pre, k, tok, post, by simp [hu], h2, h3, h4, h5, ?_⟩
        intro hsuf
        rcases List.suffix_cons_iff.mp hsuf with heq | hsuf'
        · obtain ⟨_, _, hsome⟩ := matchAt_markerInit_chain k (tok ++ post)
          have hu' : c :: rest = markerInit ++ (chain k ++ marker ++ (tok ++ post)) := by
            rw [heq, hu]
            simp [List.append_assoc]
          rw [hu', hsome] at hmatch
          exact Option.some_ne_none _ hmatch
        · exact hL hsuf'
      | some m' =>
        obtain ⟨hsplit, h13⟩ := matchAt_split _ _ hmatch
        rw [findAllFrom_of_match _ _ hmatch] at hm
        rcases List.mem_cons.mp hm with rfl | hm'
        · obtain ⟨r, hu, hmr, hne⟩ := matchAt_eq_some _ _ hmatch
          refine ⟨[], 0, r.takeWhile (fun c => !isSpace c), r.dropWhile (fun c => !isSpace c),
            ?_, hmr, hne, ?_, ?_, ?_⟩
          · simp [hu, chain, List.append_assoc]
          · intro x hx
            simpa using List.mem_takeWhile_imp hx
          · intro x hx
            have := List.head?_dropWhile_not (fun c => !isSpace c) r
            rw [hx] at this
            simpa using this
          · rintro ⟨t, ht⟩
            have := congrArg List.length ht
            simp [markerInit] at this
        · have hshort : ((c :: rest).drop m'.length).length ≤ n := by
            rw [List.length_drop]
            simp only [List.length_cons] at hlen ⊢
            omega
          obtain ⟨pre, k, tok, post, hu, h2, h3, h4, h5, hL⟩ := ih _ hshort m hm'
          by_cases hsuf : markerInit <:+ m' ++ pre
          · obtain ⟨d, hd⟩ := hsuf
            obtain ⟨Y', hY', _⟩ := matchAt_markerInit_chain k (tok ++ post)
            have hu' : c :: rest = d ++ marker ++ Y' := by
              rw [hsplit, hu, List.append_assoc d, ← hY', ← List.append_assoc d, hd]
              simp [List.append_assoc]
            have hd0 : d ≠ [] := by
              rintro rfl
              have := congrArg List.length hd
              simp [markerInit] at this
              omega
            rw [hu'] at hmatch
            rcases match_over_marker d Y' m' hd0 hmatch with ⟨_, hle⟩ | hdL
            · exfalso
              rcases List.append_eq_append_iff.mp hd with ⟨a', ha, hb⟩ | ⟨c', hc, hb⟩
              · have hlen2 := congrArg List.length ha
                rw [List.length_append] at hlen2
                have hc0 : a' = [] := List.length_eq_zero.mp (by omega)
                subst hc0
                exact hL ⟨[], by rw [hb]; rfl⟩
              · exact hL ⟨c', hb.symm⟩
            · refine ⟨[], k + 1, tok, post, ?_, h2, h3, h4, h5, ?_⟩
              · rw [hsplit, hu]
                have : m' ++ pre = markerInit ++ markerInit := by rw [← hd, hdL]
                calc m' ++ (pre ++ chain k ++ marker ++ tok ++ post)
                    = (m' ++ pre) ++ (chain k ++ marker ++ tok ++ post) := by
                      simp [List.append_assoc]
                  _ = [] ++ chain (k + 1) ++ marker ++ tok ++ post := by
                      rw [this]
                      simp [chain, List.append_assoc]
              · rintro ⟨t, ht⟩
                have := congrArg List.length ht
                simp [markerInit] at this
          · refine ⟨m' ++ pre, k, tok, post, ?_, h2, h3, h4, h5, hsuf⟩
            rw [hsplit, hu]
            simp [List.append_assoc]

/-- The observed set is the set of the matched tokens. -/
theorem mem_observed_iff (text s : GoString) : s ∈ observed text ↔ IsMatchedToken text s := by
  constructor
  · intro h
    obtain ⟨m, hm, hs⟩ := (mem_observed text s).mp h
    obtain ⟨pre, k, tok, post, h1, h2, h3, h4, h5, h6⟩ :=
      findAllFrom_exact text.length text (Nat.le_refl _) m hm
    rw [h2, TrimPrefix_marker] at hs
    subst hs
    exact ⟨h3, h4, pre, k, post, h1, h6, h5⟩
  · rintro ⟨hne, hs, pre, k, post, htext, hL, hpost⟩
    rw [htext]
    exact observed_complete pre s post k hne hs hpost hL

/-- C2 as stated fails: when the two lines start with the word `can`, nothing precedes the
word on the first line and a newline precedes it on the second, the pattern, which starts
with a space, matches nowhere and the observed set is empty. -/
theorem observed_bare_lines :
    observed "can inline foo.Bar\ncan inline foo.Baz".toList = ∅ ∧
      observed "can inline foo.Bar\ncan inline foo.Baz".toList
        ≠ {"foo.Bar".toList, "foo.Baz".toList} := by
  decide

/-- C2, amended: when a space precedes the word `can` on each of the two lines, alone or after
the position the compiler prints, the observed set is `foo.Bar`, `foo.Baz`. -/
theorem observed_spaced_lines :
    observed " can inline foo.Bar\n can inline foo.Baz".toList
        = {"foo.Bar".toList, "foo.Baz".toList} ∧
      observed "./foo.go:3:6: can inline foo.Bar\n./foo.go:7:6: can inline foo.Baz\n".toList
        = {"foo.Bar".toList, "foo.Baz".toList} := by
  decide

/-- C3 as stated fails: in ` can inline can inline foo` the marker occurs a second time,
followed by the token `foo` and the end of the text, but its first space is the last
character of the match ` can inline can`, after which the search resumes; `foo` is not in
the observed set, whose only member is `can`. -/
theorem observed_chained_marker :
    ¬ ("foo".toList ∈ observed " can inline can inline foo".toList ↔
        IsTokenAfterMarker " can inline can inline foo".toList "foo".toList) := by
  intro h
  have hocc : IsTokenAfterMarker " can inline can inline foo".toList "foo".toList :=
    ⟨by decide, by decide, " can inline".toList, [], by decide, by simp⟩
  have hnot : "foo".toList ∉ observed " can inline can inline foo".toList := by decide
  exact hnot (h.mpr hocc)

/-- C3, amended: a string is in the observed set exactly when it is non-empty, has no
whitespace character and follows an occurrence of the marker in the text, with whitespace or
the end of the text after it, where the number of consecutive copies of ` can inline` that end
right before the occurrence is even; so, for a text that does not contain
` can inline can inline `, exactly when it is a whitespace-delimited token after the marker. -/
theorem observed_iff_token (text s : GoString) :
    (s ∈ observed text ↔ IsMatchedToken text s) ∧
      (Contains text (markerInit ++ marker) = false →
        (s ∈ observed text ↔ IsTokenAfterMarker text s)) := by
  refine ⟨mem_observed_iff text s, ?_⟩
  intro hfree
  refine ⟨observed_sound text s, ?_⟩
  rintro ⟨hne, hs, pre, post, htext, hpost⟩
  have hc : pre ++ marker ++ s ++ post = pre ++ chain 0 ++ marker ++ s ++ post := by
    simp [chain]
  rw [htext, hc]
  apply observed_complete pre s post 0 hne hs hpost
  rintro ⟨d, hd⟩
  have hin : markerInit ++ marker <:+: text :=
    ⟨d, s ++ post, by rw [htext, ← hd]; simp [List.append_assoc]⟩
  rw [← Contains_iff_infix, hfree] at hin
  exact Bool.false_ne_true hin

/-- C3, amended, at concrete inputs: the token of a diagnostic line of the compiler is in the
observed set, and so is a token after three occurrences of the marker that overlap. -/
theorem observed_iff_token_witness :
    "foo.Bar".toList ∈ observed "./foo.go:3:6: can inline foo.Bar\n".toList ∧
      "foo".toList ∈ observed "x can inline can inline can inline foo bar".toList :=
  ⟨((observed_iff_token "./foo.go:3:6: can inline foo.Bar\n".toList "foo.Bar".toList).2
      (by decide)).mpr
      ⟨by decide, by decide, "./foo.go:3:6:".toList, "\n".toList, by decide, by decide⟩,
    (observed_iff_token "x can inline can inline can inline foo bar".toList "foo".toList).1.mpr
      ⟨by decide, by decide, "x".toList, 1, " bar".toList, by decide, by decide, by decide⟩⟩

end Testutil
